import Mathlib

/-!
Shallow embedding of the citation pipeline in `src/250526_jpo_oa.py`.

Strings are modelled as `List Char`; raw document bytes are modelled as
`List Char` as well (one character per byte, which is faithful for the
ASCII-range data the byte-level regular expression of `detect_encoding`
inspects).  Files are modelled by their content; "file absent" is `none`.
Every definition is translated from the source; the Python helpers
(`str.strip`, `str.splitlines`, `str.lower`, `str.replace`, `re.search`)
are modelled by the executable functions below.
-/

/-- Python `str.isspace` characters relevant to `str.strip()` (ASCII range). -/
def pyIsSpace (c : Char) : Bool :=
  c == ' ' || c == '\t' || c == '\n' || c == '\r' || c == '\x0b' || c == '\x0c'

/-- Python `s.strip()`: remove leading and trailing whitespace. -/
def pyStrip (l : List Char) : List Char :=
  ((l.dropWhile pyIsSpace).reverse.dropWhile pyIsSpace).reverse

/-- Worker for `pySplitlines`; `cur` is the reversed current line. -/
def splitlinesAux : List Char → List Char → List (List Char)
  | cur, [] => if cur.isEmpty then [] else [cur.reverse]
  | cur, '\r' :: '\n' :: rest => cur.reverse :: splitlinesAux [] rest
  | cur, '\r' :: rest => cur.reverse :: splitlinesAux [] rest
  | cur, '\n' :: rest => cur.reverse :: splitlinesAux [] rest
  | cur, c :: rest => splitlinesAux (c :: cur) rest

/-- Python `s.splitlines()` restricted to the terminators LF, CR and CRLF. -/
def pySplitlines (l : List Char) : List (List Char) :=
  splitlinesAux [] l

/-- Boolean list-prefix test (Python substring matching helper). -/
def startsWithL : List Char → List Char → Bool
  | [], _ => true
  | _ :: _, [] => false
  | p :: ps, c :: cs => p == c && startsWithL ps cs

/-- Boolean list-suffix test (Python `str.endswith`). -/
def endsWithL (l suf : List Char) : Bool :=
  startsWithL suf.reverse l.reverse

/-- The pattern `pat` occurs in `l` at position `i`. -/
def occursAt (pat l : List Char) (i : Nat) : Prop :=
  startsWithL pat (l.drop i) = true

instance (pat l : List Char) (i : Nat) : Decidable (occursAt pat l i) :=
  inferInstanceAs (Decidable (_ = true))

/-- Index of the first occurrence of `pat` in `l` (Python `re.search` on a
literal pattern, returning `m.start()`). -/
def findSubstr (pat : List Char) : List Char → Option Nat
  | [] => if startsWithL pat [] then some 0 else none
  | c :: rest =>
    if startsWithL pat (c :: rest) then some 0
    else (findSubstr pat rest).map (· + 1)

/-! ## Citation segment extraction (`gather_citation_section`, lines 180-191) -/

/-- Opening marker searched by `gather_citation_section`. -/
def openingMarker : List Char := "引用文献等一覧".toList

/-- Closing marker searched by `gather_citation_section`. -/
def closingMarker : List Char := "先行技術文献調査結果の記録".toList

/-- Contribution of one decoded document: text after the first opening
marker, truncated at the first closing marker found after it (lines 185-190
of the source: `m.end()` is the match start plus the marker length). -/
def docContribution (txt : List Char) : Option (List Char) :=
  match findSubstr openingMarker txt with
  | none => none
  | some i =>
    let seg := txt.drop (i + openingMarker.length)
    match findSubstr closingMarker seg with
    | some j => some (seg.take j)
    | none => some seg

/-- The extractor over all documents of one entry (source line 191:
`'\n'.join(buf) if buf else None`). -/
def gather_citation_section (docs : List (List Char)) : Option (List Char) :=
  let buf := docs.filterMap docContribution
  if buf.isEmpty then none else some (List.intercalate ['\n'] buf)

/-! ## Encoding detection (`detect_encoding` and `read_xml_text`, 167-177) -/

/-- The literal part of the byte regex `encoding="([^"]+)"`. -/
def encMarker : List Char := "encoding=\"".toList

/-- Attempt the regex `encoding="([^"]+)"` at the head of `l`, returning the
captured group: the maximal nonempty run of non-quote characters after the
literal part, which must be followed by a closing quote. -/
def matchEncAt (l : List Char) : Option (List Char) :=
  if startsWithL encMarker l then
    let rest := l.drop encMarker.length
    let v := rest.takeWhile (fun c => decide (c ≠ '"'))
    if v.isEmpty then none
    else if (rest.drop v.length).isEmpty then none
    else some v
  else none

/-- Leftmost match of the regex, as `re.search` does. -/
def searchEnc : List Char → Option (List Char)
  | [] => none
  | c :: rest =>
    match matchEncAt (c :: rest) with
    | some v => some v
    | none => searchEnc rest

/-- The alias rewritten by `detect_encoding`. -/
def sjAlias : List Char := "shift_jis".toList

/-- Python `s.replace('shift_jis', 'cp932')`, specialised to the fixed
pattern so the recursion is structural. -/
def replaceSj : List Char → List Char
  | [] => []
  | 's' :: 'h' :: 'i' :: 'f' :: 't' :: '_' :: 'j' :: 'i' :: 's' :: rest =>
    'c' :: 'p' :: '9' :: '3' :: '2' :: replaceSj rest
  | c :: rest => c :: replaceSj rest

/-- Python `str.lower` (ASCII case folding, which covers encoding names). -/
def pyLower (l : List Char) : List Char :=
  l.map Char.toLower

/-- `detect_encoding` (source lines 167-172): search the declaration in the
first 300 bytes, lowercase it and rewrite the legacy alias; default to
`utf-8` when nothing is found. -/
def detect_encoding (raw : List Char) : List Char :=
  match searchEnc (raw.take 300) with
  | some v => replaceSj (pyLower v)
  | none => "utf-8".toList

/-! ## Oracle normalisation (`gpt_normalize`, lines 194-206) -/

/-- Parsing of the oracle response (source line 206):
`[ln.strip() for ln in txt.splitlines() if ln.strip()]`. -/
def parseOracle (txt : List Char) : List (List Char) :=
  ((pySplitlines txt).map pyStrip).filter (fun s => !s.isEmpty)

/-- `gpt_normalize`: the oracle is a function from the (truncated) request
text to `none` (transport failure / non-2xx) or the response text.  The
second component counts the oracle calls issued (source line 195 returns
before any network request when the stripped segment is empty). -/
def gpt_normalize (oracle : List Char → Option (List Char)) (raw : List Char) :
    Option (List (List Char)) × Nat :=
  if (pyStrip raw).isEmpty then (some [], 0)
  else ((oracle (raw.take 12000)).map parseOracle, 1)

/-! ## Ledger files (`ensure_pub_txt`, 132-137, and `append_citations`, 209-227) -/

/-- Content written for a fresh ledger: `f'JP{pub}A\n'` (source line 136). -/
def seedContent (pub : List Char) : List Char :=
  "JP".toList ++ pub ++ "A\n".toList

/-- The seed line itself, without the terminating newline. -/
def seedLine (pub : List Char) : List Char :=
  "JP".toList ++ pub ++ "A".toList

/-- `ensure_pub_txt`: create the ledger with the seed line when the file is
absent, leave it untouched otherwise; the result is the file content after
the call. -/
def ensure_pub_txt (pub : List Char) : Option (List Char) → List Char
  | none => seedContent pub
  | some c => c

/-- Ledger membership set read by `append_citations` (source line 221):
`{ln.strip() for ln in f if ln.strip()}`. -/
def existingOf (content : List Char) : List (List Char) :=
  ((pySplitlines content).map pyStrip).filter (fun s => !s.isEmpty)

/-- The candidates kept by `append_citations` (source line 222):
`[i for i in ids if i not in existing]`. -/
def newCitations (content : List Char) (ids : List (List Char)) : List (List Char) :=
  ids.filter (fun i => decide (¬ i ∈ existingOf content))

/-- The merge step of `append_citations` (source lines 225-226): append each
kept candidate followed by a newline. -/
def mergeContent (content : List Char) (ids : List (List Char)) : List Char :=
  content ++ List.flatten ((newCitations content ids).map (fun i => i ++ ['\n']))

/-- `append_citations` over the ledger state: the early returns (no section,
oracle failure, no identifiers) leave the file untouched and happen before
`ensure_pub_txt` is reached (source lines 209-224). -/
def append_citations (oracle : List Char → Option (List Char)) (pub : List Char)
    (docs : List (List Char)) (st : Option (List Char)) : Option (List Char) :=
  match gather_citation_section docs with
  | none => st
  | some raw =>
    match (gpt_normalize oracle raw).1 with
    | none => st
    | some ids =>
      if ids.isEmpty then st
      else some (mergeContent (ensure_pub_txt pub st) ids)

/-- One iteration of the `main` loop for one entry (source lines 257-263):
the download outcome is abstracted by the resulting document list `docs`;
`ensure_pub_txt` runs unconditionally before `append_citations`. -/
def processEntry (oracle : List Char → Option (List Char)) (pub : List Char)
    (docs : List (List Char)) (st : Option (List Char)) : Option (List Char) :=
  append_citations oracle pub docs (some (ensure_pub_txt pub st))

/-! ## Entry loading (`load_entries`, lines 90-102) -/

/-- Strip the spreadsheet float artifact (source lines 97-98):
`x[:-2] if x.endswith('.0') else x`. -/
def normCell (x : List Char) : List Char :=
  if endsWithL x ('.' :: '0' :: []) then x.take (x.length - 2) else x

/-- `pd.isna(x) or str(x).strip()==''`; an absent cell is `none`. -/
def cellEmpty : Option (List Char) → Bool
  | none => true
  | some s => (pyStrip s).isEmpty

/-- String form of a present cell. -/
def cellStr (o : Option (List Char)) : List Char :=
  o.getD []

/-- The row loop of `load_entries` (source lines 93-99): stop at an empty
first column, fail on an empty second or third column, otherwise accumulate
the normalised triple.  A raised `ValueError` discards everything. -/
def loadRows :
    List (Option (List Char) × Option (List Char) × Option (List Char)) →
      Except String (List (List Char × List Char × List Char))
  | [] => .ok []
  | (a, b, c) :: rest =>
    if cellEmpty a then .ok []
    else if cellEmpty b then .error "B列が空"
    else if cellEmpty c then .error "C列が空"
    else
      (loadRows rest).map
        (fun out => (normCell (cellStr a), normCell (cellStr b), normCell (cellStr c)) :: out)

/-- `load_entries` (source lines 90-102): the loop followed by the final
emptiness check `if not out: raise ValueError('データ無し')`. -/
def load_entries
    (rows : List (Option (List Char) × Option (List Char) × Option (List Char))) :
    Except String (List (List Char × List Char × List Char)) :=
  match loadRows rows with
  | .error e => .error e
  | .ok [] => .error "データ無し"
  | .ok out => .ok out

/-! ## Token refresh policy (`main`, lines 255-259) -/

/-- The safety margin hard-coded in `time.time() > expiry - 60`. -/
def refreshSafetyMargin : Int := 60

/-- The fixed token lifetime: `expiry = time.time() + 3600`. -/
def tokenLifetime : Int := 3600

/-- The refresh test of the `main` loop (source line 258), with time as an
integer timestamp: `time.time() > expiry - 60`. -/
def is_due_for_refresh (now expiry : Int) : Bool :=
  decide (expiry - refreshSafetyMargin < now)

/-! ## Specification-side predicates used to state the claims -/

/-- Shape of every candidate identifier produced by the oracle-output parse:
already stripped, nonempty, and free of line terminators. -/
def idShaped (i : List Char) : Prop :=
  pyStrip i = i ∧ i ≠ [] ∧ '\n' ∉ i ∧ '\r' ∉ i

/-- An encoding declaration `encoding="v"` occurs in `l` at position `i`
with captured value `v` (the value is nonempty and quote-free, exactly what
the regex group `([^"]+)` captures). -/
def declAt (l : List Char) (i : Nat) (v : List Char) : Prop :=
  v ≠ [] ∧ (∀ x ∈ v, x ≠ '"') ∧
    startsWithL (encMarker ++ (v ++ ['"'])) (l.drop i) = true

instance (l : List Char) (i : Nat) (v : List Char) : Decidable (declAt l i v) :=
  inferInstanceAs (Decidable (_ ∧ _ ∧ _ = true))

/-! ## Helper lemmas: prefix tests and first-occurrence search -/

theorem startsWithL_iff_ex {p l : List Char} :
    startsWithL p l = true ↔ ∃ t, l = p ++ t := by
  induction p generalizing l with
  | nil => simp [startsWithL]
  | cons x xs ih =>
    cases l with
    | nil => simp [startsWithL]
    | cons c cs =>
      simp only [startsWithL, Bool.and_eq_true, beq_iff_eq, ih, List.cons_append,
        List.cons.injEq]
      constructor
      · rintro ⟨rfl, t, rfl⟩; exact ⟨t, rfl, rfl⟩
      · rintro ⟨t, rfl, rfl⟩; exact ⟨rfl, t, rfl⟩

theorem startsWithL_append_self (p t : List Char) :
    startsWithL p (p ++ t) = true :=
  startsWithL_iff_ex.mpr ⟨t, rfl⟩

theorem startsWithL_of_append {a b l : List Char}
    (h : startsWithL (a ++ b) l = true) : startsWithL a l = true := by
  rcases startsWithL_iff_ex.mp h with ⟨t, rfl⟩
  exact startsWithL_iff_ex.mpr ⟨b ++ t, by simp⟩

theorem startsWithL_drop_of_append {a b l : List Char}
    (h : startsWithL (a ++ b) l = true) :
    startsWithL b (l.drop a.length) = true := by
  rcases startsWithL_iff_ex.mp h with ⟨t, rfl⟩
  rw [List.append_assoc, List.drop_left]
  exact startsWithL_append_self b t

theorem startsWithL_of_take {p l : List Char} {n : Nat}
    (h : startsWithL p (l.take n) = true) : startsWithL p l = true := by
  rcases startsWithL_iff_ex.mp h with ⟨t, ht⟩
  refine startsWithL_iff_ex.mpr ⟨t ++ l.drop n, ?_⟩
  conv_lhs => rw [← List.take_append_drop n l]
  rw [ht, List.append_assoc]

theorem startsWithL_nil_of_ne {p : List Char} (hp : p ≠ []) :
    startsWithL p [] = false := by
  cases p with
  | nil => exact absurd rfl hp
  | cons x xs => rfl

theorem not_occursAt_of_le {pat l : List Char} {j : Nat} (hp : pat ≠ [])
    (hj : l.length ≤ j) : ¬ occursAt pat l j := by
  intro h
  rw [occursAt, List.drop_eq_nil_of_le hj, startsWithL_nil_of_ne hp] at h
  exact Bool.false_ne_true h

theorem occursAt_cons_succ {pat : List Char} {c : Char} {rest : List Char} {j : Nat} :
    occursAt pat (c :: rest) (j + 1) ↔ occursAt pat rest j := by
  simp [occursAt, List.drop_succ_cons]

theorem findSubstr_eq_some_of {pat l : List Char} {i : Nat} (hp : pat ≠ [])
    (hocc : occursAt pat l i) (hmin : ∀ j < i, ¬ occursAt pat l j) :
    findSubstr pat l = some i := by
  induction l generalizing i with
  | nil =>
    exact absurd hocc (not_occursAt_of_le hp (Nat.zero_le i))
  | cons c rest ih =>
    cases i with
    | zero =>
      have h0 : startsWithL pat (c :: rest) = true := hocc
      simp [findSubstr, h0]
    | succ i' =>
      have h0 : ¬ startsWithL pat (c :: rest) = true := hmin 0 (Nat.succ_pos i')
      have hocc' : occursAt pat rest i' := occursAt_cons_succ.mp hocc
      have hmin' : ∀ j < i', ¬ occursAt pat rest j := by
        intro j hj hcon
        exact hmin (j + 1) (Nat.succ_lt_succ hj) (occursAt_cons_succ.mpr hcon)
      simp [findSubstr, h0, ih hocc' hmin']

theorem findSubstr_eq_none_of {pat l : List Char} (hp : pat ≠ [])
    (h : ∀ j, ¬ occursAt pat l j) : findSubstr pat l = none := by
  induction l with
  | nil => simp [findSubstr, startsWithL_nil_of_ne hp]
  | cons c rest ih =>
    have h0 : ¬ startsWithL pat (c :: rest) = true := h 0
    have h' : ∀ j, ¬ occursAt pat rest j := fun j hcon =>
      h (j + 1) (occursAt_cons_succ.mpr hcon)
    simp [findSubstr, h0, ih h']

theorem forall_not_occursAt_of_bounded {pat l : List Char} (hp : pat ≠ [])
    (h : ∀ j ≤ l.length, ¬ occursAt pat l j) : ∀ j, ¬ occursAt pat l j := by
  intro j
  rcases le_or_lt j l.length with hle | hlt
  · exact h j hle
  · exact not_occursAt_of_le hp (Nat.le_of_lt hlt)

/-! ## Helper lemmas: `pyStrip` -/

theorem dropWhile_dropWhile_self (p : Char → Bool) (l : List Char) :
    List.dropWhile p (List.dropWhile p l) = List.dropWhile p l := by
  induction l with
  | nil => rfl
  | cons c rest ih =>
    by_cases h : p c
    · simp [List.dropWhile, h, ih]
    · simp [List.dropWhile, h]

theorem dropWhile_cons_of_neg {p : Char → Bool} {c : Char} {t : List Char}
    (h : ¬ p c = true) : List.dropWhile p (c :: t) = c :: t := by
  simp [List.dropWhile, h]

theorem pyStrip_rev :
    ∀ l : List Char, (pyStrip l).reverse = List.dropWhile pyIsSpace (List.dropWhile pyIsSpace l).reverse := by
  intro l
  simp [pyStrip]

theorem dropWhile_fixes_strip (l : List Char) :
    List.dropWhile pyIsSpace (pyStrip l) = pyStrip l := by
  set A := List.dropWhile pyIsSpace l with hA
  have hsuffix : pyStrip l <+: A := by
    rw [← List.reverse_suffix]
    rw [pyStrip_rev]
    exact ⟨List.takeWhile pyIsSpace A.reverse, List.takeWhile_append_dropWhile _ _⟩
  rcases hsuffix with ⟨t, ht⟩
  cases hs : pyStrip l with
  | nil => rfl
  | cons c cs =>
    have hc : ¬ pyIsSpace c = true := by
      have hA' : A = c :: (cs ++ t) := by rw [← ht, hs, List.cons_append]
      intro hcon
      have : List.dropWhile pyIsSpace A = A := dropWhile_dropWhile_self pyIsSpace l
      rw [hA', List.dropWhile] at this
      simp only [hcon, ite_true] at this
      have hlen := congrArg List.length this
      have hle : (List.dropWhile pyIsSpace (cs ++ t)).length ≤ (cs ++ t).length := by
        have hsplit := congrArg List.length
          (List.takeWhile_append_dropWhile pyIsSpace (cs ++ t))
        rw [List.length_append] at hsplit
        omega
      simp only [List.length_cons] at hlen
      omega
    exact dropWhile_cons_of_neg hc

theorem pyStrip_idem (l : List Char) : pyStrip (pyStrip l) = pyStrip l := by
  have h1 : List.dropWhile pyIsSpace (pyStrip l) = pyStrip l := dropWhile_fixes_strip l
  have h2 : (pyStrip l).reverse = List.dropWhile pyIsSpace (List.dropWhile pyIsSpace l).reverse :=
    pyStrip_rev l
  rw [pyStrip, h1, h2, dropWhile_dropWhile_self, ← pyStrip_rev, List.reverse_reverse]

theorem pyStrip_subset (l : List Char) : pyStrip l ⊆ l := by
  intro x hx
  rw [pyStrip] at hx
  rw [List.mem_reverse] at hx
  have h1 : x ∈ (List.dropWhile pyIsSpace l).reverse := by
    have : List.dropWhile pyIsSpace (List.dropWhile pyIsSpace l).reverse ⊆
        (List.dropWhile pyIsSpace l).reverse := by
      intro y hy
      have := List.takeWhile_append_dropWhile pyIsSpace (List.dropWhile pyIsSpace l).reverse
      rw [← this]
      exact List.mem_append_right _ hy
    exact this hx
  rw [List.mem_reverse] at h1
  have : List.dropWhile pyIsSpace l ⊆ l := by
    intro y hy
    have := List.takeWhile_append_dropWhile pyIsSpace l
    rw [← this]
    exact List.mem_append_right _ hy
  exact this h1

theorem pyStrip_eq_nil_of_all_space {l : List Char}
    (h : ∀ x ∈ l, pyIsSpace x = true) : pyStrip l = [] := by
  have h1 : List.dropWhile pyIsSpace l = [] := List.dropWhile_eq_nil_iff.mpr h
  simp [pyStrip, h1]

/-! ## Helper lemmas: `pySplitlines` -/

theorem splitlinesAux_crlf (cur rest : List Char) :
    splitlinesAux cur ('\r' :: '\n' :: rest) = cur.reverse :: splitlinesAux [] rest := by
  simp [splitlinesAux]

theorem splitlinesAux_cr (cur rest : List Char) (h : rest.head? ≠ some '\n') :
    splitlinesAux cur ('\r' :: rest) = cur.reverse :: splitlinesAux [] rest := by
  cases rest with
  | nil => simp [splitlinesAux]
  | cons d t =>
    have hd : d ≠ '\n' := by
      intro hcon
      exact h (by simp [hcon])
    simp [splitlinesAux, hd]

theorem splitlinesAux_lf (cur rest : List Char) :
    splitlinesAux cur ('\n' :: rest) = cur.reverse :: splitlinesAux [] rest := by
  simp [splitlinesAux]

theorem splitlinesAux_other (cur : List Char) (c : Char) (rest : List Char)
    (h1 : c ≠ '\r') (h2 : c ≠ '\n') :
    splitlinesAux cur (c :: rest) = splitlinesAux (c :: cur) rest := by
  simp [splitlinesAux, h1, h2]

theorem splitlinesAux_peel (b : List Char) :
    ∀ (line cur : List Char), '\n' ∉ line → '\r' ∉ line →
      splitlinesAux cur (line ++ '\n' :: b) =
        (cur.reverse ++ line) :: splitlinesAux [] b := by
  intro line
  induction line with
  | nil =>
    intro cur _ _
    simpa using splitlinesAux_lf cur b
  | cons c line' ih =>
    intro cur hn hr
    have hc_n : c ≠ '\n' := fun hcon => hn (hcon ▸ List.mem_cons_self c line')
    have hc_r : c ≠ '\r' := fun hcon => hr (hcon ▸ List.mem_cons_self c line')
    have hn' : '\n' ∉ line' := fun hcon => hn (List.mem_cons_of_mem c hcon)
    have hr' : '\r' ∉ line' := fun hcon => hr (List.mem_cons_of_mem c hcon)
    rw [List.cons_append, splitlinesAux_other cur c _ hc_r hc_n, ih (c :: cur) hn' hr']
    simp

theorem pySplitlines_single {line : List Char} (h1 : '\n' ∉ line) (h2 : '\r' ∉ line) :
    pySplitlines (line ++ ['\n']) = [line] := by
  have := splitlinesAux_peel [] line [] h1 h2
  simpa [pySplitlines, splitlinesAux] using this

theorem pySplitlines_peel {line : List Char} (b : List Char)
    (h1 : '\n' ∉ line) (h2 : '\r' ∉ line) :
    pySplitlines (line ++ '\n' :: b) = line :: pySplitlines b := by
  simpa [pySplitlines] using splitlinesAux_peel b line [] h1 h2

theorem splitlinesAux_append_of_newline (b : List Char) :
    ∀ (a cur : List Char), a.getLast? = some '\n' →
      splitlinesAux cur (a ++ b) = splitlinesAux cur a ++ splitlinesAux [] b := by
  suffices H : ∀ (n : Nat) (a cur : List Char), a.length ≤ n → a.getLast? = some '\n' →
      splitlinesAux cur (a ++ b) = splitlinesAux cur a ++ splitlinesAux [] b by
    exact fun a cur h => H a.length a cur le_rfl h
  intro n
  induction n with
  | zero =>
    intro a cur hlen hlast
    cases a with
    | nil => simp at hlast
    | cons c t => simp at hlen
  | succ n ih =>
    intro a cur hlen hlast
    cases a with
    | nil => simp at hlast
    | cons c a' =>
      by_cases hc_r : c = '\r'
      · subst hc_r
        cases a' with
        | nil => simp at hlast
        | cons d a'' =>
          by_cases hd : d = '\n'
          · subst hd
            cases a'' with
            | nil =>
              simp [splitlinesAux_crlf, splitlinesAux]
            | cons e a''' =>
              have hlast' : (e :: a''').getLast? = some '\n' := by
                simpa [List.getLast?_cons_cons] using hlast
              have hlen' : (e :: a''').length ≤ n := by
                simp only [List.length_cons] at hlen ⊢; omega
              rw [List.cons_append, List.cons_append, splitlinesAux_crlf,
                splitlinesAux_crlf, ih (e :: a''') [] hlen' hlast']
              simp
          · have hlast' : (d :: a'').getLast? = some '\n' := by
              simpa [List.getLast?_cons_cons] using hlast
            have hlen' : (d :: a'').length ≤ n := by
              simp only [List.length_cons] at hlen ⊢; omega
            have hhead : ((d :: a'') ++ b).head? ≠ some '\n' := by
              simp [hd]
            have hhead2 : (d :: a'').head? ≠ some '\n' := by
              simp [hd]
            rw [List.cons_append, splitlinesAux_cr cur _ hhead,
              splitlinesAux_cr cur _ hhead2, ih (d :: a'') [] hlen' hlast']
            simp
      · by_cases hc_n : c = '\n'
        · subst hc_n
          cases a' with
          | nil =>
            simp [splitlinesAux_lf, splitlinesAux]
          | cons d a'' =>
            have hlast' : (d :: a'').getLast? = some '\n' := by
              simpa [List.getLast?_cons_cons] using hlast
            have hlen' : (d :: a'').length ≤ n := by
              simp only [List.length_cons] at hlen ⊢; omega
            rw [List.cons_append, splitlinesAux_lf, splitlinesAux_lf,
              ih (d :: a'') [] hlen' hlast']
            simp
        · cases a' with
          | nil =>
            rw [List.getLast?_singleton] at hlast
            exact absurd (Option.some.inj hlast) hc_n
          | cons d a'' =>
            have hlast' : (d :: a'').getLast? = some '\n' := by
              simpa [List.getLast?_cons_cons] using hlast
            have hlen' : (d :: a'').length ≤ n := by
              simp only [List.length_cons] at hlen ⊢; omega
            rw [List.cons_append, splitlinesAux_other cur c _ hc_r hc_n,
              splitlinesAux_other cur c _ hc_r hc_n, ih (d :: a'') (c :: cur) hlen' hlast']

theorem pySplitlines_append_of_newline {a : List Char} (b : List Char)
    (h : a.getLast? = some '\n') :
    pySplitlines (a ++ b) = pySplitlines a ++ pySplitlines b :=
  splitlinesAux_append_of_newline b a [] h

theorem pySplitlines_flatten :
    ∀ ids : List (List Char), (∀ i ∈ ids, '\n' ∉ i ∧ '\r' ∉ i) →
      pySplitlines (List.flatten (ids.map (fun i => i ++ ['\n']))) = ids := by
  intro ids
  induction ids with
  | nil => intro _; simp [pySplitlines, splitlinesAux]
  | cons i rest ih =>
    intro h
    have hi := h i (List.mem_cons_self i rest)
    have hrest : ∀ j ∈ rest, '\n' ∉ j ∧ '\r' ∉ j :=
      fun j hj => h j (List.mem_cons_of_mem i hj)
    have : List.flatten ((i :: rest).map (fun i => i ++ ['\n'])) =
        i ++ '\n' :: List.flatten (rest.map (fun i => i ++ ['\n'])) := by
      simp
    rw [this, pySplitlines_peel _ hi.1 hi.2, ih hrest]

theorem splitlinesAux_mem_no_term :
    ∀ (n : Nat) (l cur : List Char), l.length ≤ n →
      (∀ x ∈ cur, x ≠ '\n' ∧ x ≠ '\r') →
      ∀ s ∈ splitlinesAux cur l, ∀ x ∈ s, x ≠ '\n' ∧ x ≠ '\r' := by
  intro n
  induction n with
  | zero =>
    intro l cur hlen hcur s hs
    cases l with
    | nil =>
      rw [splitlinesAux] at hs
      split at hs
      · simp at hs
      · rw [List.mem_singleton] at hs
        subst hs
        intro x hx
        exact hcur x (List.mem_reverse.mp hx)
    | cons c t => simp at hlen
  | succ n ih =>
    intro l cur hlen hcur s hs
    cases l with
    | nil => exact ih [] cur (Nat.zero_le n) hcur s hs
    | cons c rest =>
      by_cases hc_r : c = '\r'
      · subst hc_r
        cases rest with
        | nil =>
          rw [splitlinesAux_cr cur [] (by simp)] at hs
          rcases List.mem_cons.mp hs with rfl | hs'
          · intro x hx; exact hcur x (List.mem_reverse.mp hx)
          · exact ih [] [] (by simp) (by simp) s hs'
        | cons d rest' =>
          by_cases hd : d = '\n'
          · subst hd
            rw [splitlinesAux_crlf] at hs
            rcases List.mem_cons.mp hs with rfl | hs'
            · intro x hx; exact hcur x (List.mem_reverse.mp hx)
            · have hlen' : rest'.length ≤ n := by
                simp only [List.length_cons] at hlen; omega
              exact ih rest' [] hlen' (by simp) s hs'
          · rw [splitlinesAux_cr cur _ (by simp [hd])] at hs
            rcases List.mem_cons.mp hs with rfl | hs'
            · intro x hx; exact hcur x (List.mem_reverse.mp hx)
            · have hlen' : (d :: rest').length ≤ n := by
                simp only [List.length_cons] at hlen ⊢; omega
              exact ih (d :: rest') [] hlen' (by simp) s hs'
      · by_cases hc_n : c = '\n'
        · subst hc_n
          rw [splitlinesAux_lf] at hs
          rcases List.mem_cons.mp hs with rfl | hs'
          · intro x hx; exact hcur x (List.mem_reverse.mp hx)
          · have hlen' : rest.length ≤ n := by
              simp only [List.length_cons] at hlen; omega
            exact ih rest [] hlen' (by simp) s hs'
        · rw [splitlinesAux_other cur c rest hc_r hc_n] at hs
          have hcur' : ∀ x ∈ c :: cur, x ≠ '\n' ∧ x ≠ '\r' := by
            intro x hx
            rcases List.mem_cons.mp hx with rfl | hx'
            · exact ⟨hc_n, hc_r⟩
            · exact hcur x hx'
          have hlen' : rest.length ≤ n := by
            simp only [List.length_cons] at hlen; omega
          exact ih rest (c :: cur) hlen' hcur' s hs

theorem pySplitlines_mem_no_term {l : List Char} {s : List Char}
    (hs : s ∈ pySplitlines l) : ∀ x ∈ s, x ≠ '\n' ∧ x ≠ '\r' :=
  splitlinesAux_mem_no_term l.length l [] le_rfl (by simp) s hs

/-! ## Helper lemmas: oracle output and ledger merging -/

theorem parseOracle_mem {t c : List Char} (hc : c ∈ parseOracle t) : idShaped c := by
  rw [parseOracle, List.mem_filter] at hc
  obtain ⟨hmem, hne⟩ := hc
  rw [List.mem_map] at hmem
  obtain ⟨d, hd, rfl⟩ := hmem
  refine ⟨pyStrip_idem d, ?_, ?_, ?_⟩
  · intro hcon
    rw [hcon] at hne
    simp at hne
  · intro hcon
    exact ((pySplitlines_mem_no_term hd) '\n' (pyStrip_subset d hcon)).1 rfl
  · intro hcon
    exact ((pySplitlines_mem_no_term hd) '\r' (pyStrip_subset d hcon)).2 rfl

theorem map_pyStrip_eq_self {l : List (List Char)} (h : ∀ i ∈ l, pyStrip i = i) :
    l.map pyStrip = l := by
  induction l with
  | nil => rfl
  | cons i rest ih =>
    rw [List.map_cons, h i (List.mem_cons_self i rest),
      ih (fun j hj => h j (List.mem_cons_of_mem i hj))]

theorem filter_nonempty_eq_self {l : List (List Char)} (h : ∀ i ∈ l, i ≠ []) :
    l.filter (fun s => !s.isEmpty) = l := by
  induction l with
  | nil => rfl
  | cons i rest ih =>
    have hne : i ≠ [] := h i (List.mem_cons_self i rest)
    have hi : (!i.isEmpty) = true := by
      rcases i with _ | ⟨x, xs⟩
      · exact absurd rfl hne
      · rfl
    simp only [List.filter_cons, hi, if_true]
    rw [ih (fun j hj => h j (List.mem_cons_of_mem i hj))]

theorem newCitations_sub {content : List Char} {ids : List (List Char)} :
    newCitations content ids ⊆ ids := by
  intro i hi
  simp only [newCitations] at hi
  exact List.mem_of_mem_filter hi

theorem newCitations_shaped {content : List Char} {ids : List (List Char)}
    (h : ∀ i ∈ ids, idShaped i) : ∀ i ∈ newCitations content ids, idShaped i :=
  fun i hi => h i (newCitations_sub hi)

theorem pySplitlines_mergeContent {content : List Char} {ids : List (List Char)}
    (hc : content = [] ∨ content.getLast? = some '\n')
    (hids : ∀ i ∈ ids, idShaped i) :
    pySplitlines (mergeContent content ids) =
      pySplitlines content ++ newCitations content ids := by
  have hnew : ∀ i ∈ newCitations content ids, '\n' ∉ i ∧ '\r' ∉ i :=
    fun i hi => ⟨((newCitations_shaped hids) i hi).2.2.1, ((newCitations_shaped hids) i hi).2.2.2⟩
  rcases hc with rfl | hlast
  · rw [mergeContent, List.nil_append, pySplitlines_flatten _ hnew]
    rfl
  · rw [mergeContent, pySplitlines_append_of_newline _ hlast,
      pySplitlines_flatten _ hnew]

theorem existingOf_mergeContent {content : List Char} {ids : List (List Char)}
    (hc : content = [] ∨ content.getLast? = some '\n')
    (hids : ∀ i ∈ ids, idShaped i) :
    existingOf (mergeContent content ids) =
      existingOf content ++ newCitations content ids := by
  rw [existingOf, pySplitlines_mergeContent hc hids, List.map_append, List.filter_append]
  rw [map_pyStrip_eq_self (fun i hi => ((newCitations_shaped hids) i hi).1),
    filter_nonempty_eq_self (fun i hi => ((newCitations_shaped hids) i hi).2.1)]
  rfl

/-! ## Claims -/

/-- C1, counterexample.  Merging the oracle-ordered candidates
`[X, Y, X, Z]` into a ledger holding only the seed line does NOT give the
lines `[seed, X, Y, Z]` claimed by the spec: `append_citations` only
filters against the lines already on disk, so the in-batch duplicate `X`
is appended twice. -/
theorem claim_C1_counterexample :
    pySplitlines (mergeContent (seedContent ("2025012345".toList))
        (parseOracle ("JP2014178928A\nWO2011092813\nJP2014178928A\nUS20150183083A1".toList)))
      ≠ ["JP2025012345A".toList, "JP2014178928A".toList, "WO2011092813".toList,
          "US20150183083A1".toList] := by
  decide

/-- C1, amended.  For every newline-terminated (or empty) ledger content and
every oracle response, the merged ledger's lines are the old lines followed
by exactly the candidates not already present in the ledger's membership
set, in the oracle's relative order (an order-preserving sublist of the
candidate list); in-batch duplicates of absent candidates are all kept. -/
theorem claim_C1_theorem (content t : List Char)
    (hc : content = [] ∨ content.getLast? = some '\n') :
    pySplitlines (mergeContent content (parseOracle t)) =
      pySplitlines content ++ newCitations content (parseOracle t)
    ∧ List.Sublist (newCitations content (parseOracle t)) (parseOracle t)
    ∧ (∀ i ∈ parseOracle t, i ∉ existingOf content →
        i ∈ newCitations content (parseOracle t)) := by
  have hids : ∀ i ∈ parseOracle t, idShaped i := fun i hi => parseOracle_mem hi
  refine ⟨pySplitlines_mergeContent hc hids, List.filter_sublist _, ?_⟩
  intro i hi hmem
  rw [newCitations, List.mem_filter]
  exact ⟨hi, by simpa using hmem⟩

/-- C1, witness: the amended statement evaluated on the `[X, Y, X, Z]`
example of the spec, showing the actual resulting lines. -/
theorem claim_C1_witness :
    pySplitlines (mergeContent (seedContent ("2025012345".toList))
        (parseOracle ("JP2014178928A\nWO2011092813\nJP2014178928A\nUS20150183083A1".toList)))
      = ["JP2025012345A".toList, "JP2014178928A".toList, "WO2011092813".toList,
          "JP2014178928A".toList, "US20150183083A1".toList] := by
  rw [(claim_C1_theorem (seedContent ("2025012345".toList))
      ("JP2014178928A\nWO2011092813\nJP2014178928A\nUS20150183083A1".toList)
      (Or.inr (by decide))).1]
  decide

/-- C2, counterexample.  At the exact instant `now = expires_at - margin`
the claim says the refresh test returns true, but the code's strict
comparison `time.time() > expiry - 60` returns false. -/
theorem claim_C2_counterexample :
    is_due_for_refresh 3540 3600 = false ∧ (3600 : Int) - refreshSafetyMargin ≤ 3540 := by
  decide

/-- C2, amended.  The refresh test returns true exactly when
`now > expires_at - safety_margin` (strictly); in particular it is false
immediately after an acquire or refresh (which sets
`expiry = now + 3600`) and still false at the exact boundary instant. -/
theorem claim_C2_theorem :
    (∀ now expiry : Int,
        is_due_for_refresh now expiry = true ↔ expiry - refreshSafetyMargin < now)
    ∧ (∀ t : Int, is_due_for_refresh t (t + tokenLifetime) = false)
    ∧ (∀ e : Int, is_due_for_refresh (e - refreshSafetyMargin) e = false) := by
  refine ⟨fun now expiry => by simp [is_due_for_refresh], fun t => ?_, fun e => ?_⟩
  · simp only [is_due_for_refresh, refreshSafetyMargin, tokenLifetime,
      decide_eq_false_iff_not, not_lt]
    omega
  · simp only [is_due_for_refresh, decide_eq_false_iff_not, not_lt]
    omega

/-- C4.  Merging the same oracle-produced candidate list twice changes the
ledger only on the first call: for every newline-terminated (or empty)
ledger content and every oracle response text, the second merge is the
identity on the file content. -/
theorem claim_C4_theorem (content t : List Char)
    (hc : content = [] ∨ content.getLast? = some '\n') :
    mergeContent (mergeContent content (parseOracle t)) (parseOracle t) =
      mergeContent content (parseOracle t) := by
  have hids : ∀ i ∈ parseOracle t, idShaped i := fun i hi => parseOracle_mem hi
  have hex : existingOf (mergeContent content (parseOracle t)) =
      existingOf content ++ newCitations content (parseOracle t) :=
    existingOf_mergeContent hc hids
  have hnew2 : newCitations (mergeContent content (parseOracle t)) (parseOracle t) = [] := by
    rw [newCitations, List.filter_eq_nil_iff]
    intro i hi
    simp only [decide_eq_true_eq, not_not]
    rw [hex, List.mem_append]
    by_cases hmem : i ∈ existingOf content
    · exact Or.inl hmem
    · refine Or.inr ?_
      rw [newCitations, List.mem_filter]
      exact ⟨hi, by simpa using hmem⟩
  conv_lhs => rw [mergeContent, hnew2]
  simp

/-- C4, witness: idempotence evaluated on a concrete seed-only ledger and a
concrete two-candidate oracle response. -/
theorem claim_C4_witness :
    mergeContent (mergeContent (seedContent ("2025012345".toList))
        (parseOracle ("JP2014178928A\nWO2011092813".toList)))
      ("JP2014178928A\nWO2011092813".toList |> parseOracle) =
      mergeContent (seedContent ("2025012345".toList))
        (parseOracle ("JP2014178928A\nWO2011092813".toList)) :=
  claim_C4_theorem (seedContent ("2025012345".toList))
    ("JP2014178928A\nWO2011092813".toList) (Or.inr (by decide))

/-- C5.  For every publication number (a line without terminator
characters), `ensure_pub_txt` creates an absent ledger with exactly the
single seed line `JP{pub}A`, and is the identity on the content of an
existing ledger (never overwrites). -/
theorem claim_C5_theorem (pub : List Char) (h1 : '\n' ∉ pub) (h2 : '\r' ∉ pub) :
    pySplitlines (ensure_pub_txt pub none) = [seedLine pub]
    ∧ (∀ c, ensure_pub_txt pub (some c) = c) := by
  constructor
  · have hline1 : '\n' ∉ seedLine pub := by
      intro hcon
      rw [seedLine] at hcon
      rcases List.mem_append.mp hcon with hl | hr
      · rcases List.mem_append.mp hl with ha | hb
        · exact absurd ha (by decide)
        · exact h1 hb
      · exact absurd hr (by decide)
    have hline2 : '\r' ∉ seedLine pub := by
      intro hcon
      rw [seedLine] at hcon
      rcases List.mem_append.mp hcon with hl | hr
      · rcases List.mem_append.mp hl with ha | hb
        · exact absurd ha (by decide)
        · exact h2 hb
      · exact absurd hr (by decide)
    have hcontent : ensure_pub_txt pub none = seedLine pub ++ ['\n'] := by
      simp [ensure_pub_txt, seedContent, seedLine]
    rw [hcontent, pySplitlines_single hline1 hline2]
  · intro c
    rfl

/-- C5, witness: a fresh ledger for publication 2025012345 holds exactly
the seed line, and an existing ledger content is returned unchanged. -/
theorem claim_C5_witness :
    pySplitlines (ensure_pub_txt ("2025012345".toList) none) = [seedLine ("2025012345".toList)]
    ∧ ensure_pub_txt ("2025012345".toList) (some ("JP1A\nX\n".toList)) = "JP1A\nX\n".toList :=
  ⟨(claim_C5_theorem ("2025012345".toList) (by decide) (by decide)).1,
    (claim_C5_theorem ("2025012345".toList) (by decide) (by decide)).2 _⟩

/-- C8.  An empty or whitespace-only segment makes `gpt_normalize` return
the empty identifier list with zero oracle calls issued, for every oracle. -/
theorem claim_C8_theorem (oracle : List Char → Option (List Char)) (raw : List Char)
    (h : ∀ x ∈ raw, pyIsSpace x = true) :
    gpt_normalize oracle raw = (some [], 0) := by
  rw [gpt_normalize, pyStrip_eq_nil_of_all_space h]
  rfl

/-- C8, witness: a whitespace-only segment issues no oracle call even for
an oracle that would answer. -/
theorem claim_C8_witness :
    gpt_normalize (fun s => some ('x' :: s)) ("  \n\t ".toList) = (some [], 0) :=
  claim_C8_theorem (fun s => some ('x' :: s)) ("  \n\t ".toList) (by decide)

/-- C3.  Per-document contribution of the extractor: with the first opening
marker at position `|pre|` and the first closing marker after it at
position `|mid|` of the remaining text, exactly the text strictly between
the end of the opening marker and the start of the closing marker is
contributed; with no closing marker after the opening one, the text runs to
the document's end; with no opening marker the document contributes
nothing; and the extractor returns `none` exactly when no document
contributed. -/
theorem claim_C3_theorem :
    (∀ pre mid post : List Char,
        (∀ j < pre.length, ¬ occursAt openingMarker
          (pre ++ (openingMarker ++ (mid ++ (closingMarker ++ post)))) j) →
        (∀ j < mid.length, ¬ occursAt closingMarker (mid ++ (closingMarker ++ post)) j) →
        docContribution (pre ++ (openingMarker ++ (mid ++ (closingMarker ++ post)))) = some mid)
    ∧ (∀ pre rest : List Char,
        (∀ j < pre.length, ¬ occursAt openingMarker (pre ++ (openingMarker ++ rest)) j) →
        (∀ j ≤ rest.length, ¬ occursAt closingMarker rest j) →
        docContribution (pre ++ (openingMarker ++ rest)) = some rest)
    ∧ (∀ txt : List Char, (∀ j ≤ txt.length, ¬ occursAt openingMarker txt j) →
        docContribution txt = none)
    ∧ (∀ docs : List (List Char),
        gather_citation_section docs = none ↔ ∀ d ∈ docs, docContribution d = none) := by
  have hopen_ne : openingMarker ≠ [] := by decide
  have hclose_ne : closingMarker ≠ [] := by decide
  refine ⟨?_, ?_, ?_, ?_⟩
  · intro pre mid post h1 h2
    have hocc1 : occursAt openingMarker
        (pre ++ (openingMarker ++ (mid ++ (closingMarker ++ post)))) pre.length := by
      rw [occursAt, List.drop_left]
      exact startsWithL_append_self openingMarker _
    have hfind1 : findSubstr openingMarker
        (pre ++ (openingMarker ++ (mid ++ (closingMarker ++ post)))) = some pre.length :=
      findSubstr_eq_some_of hopen_ne hocc1 h1
    have hseg : (pre ++ (openingMarker ++ (mid ++ (closingMarker ++ post)))).drop
        (pre.length + openingMarker.length) = mid ++ (closingMarker ++ post) := by
      rw [show pre ++ (openingMarker ++ (mid ++ (closingMarker ++ post))) =
          (pre ++ openingMarker) ++ (mid ++ (closingMarker ++ post)) from
        (List.append_assoc pre openingMarker _).symm]
      rw [← List.length_append pre openingMarker, List.drop_left]
    have hocc2 : occursAt closingMarker (mid ++ (closingMarker ++ post)) mid.length := by
      rw [occursAt, List.drop_left]
      exact startsWithL_append_self closingMarker _
    have hfind2 : findSubstr closingMarker (mid ++ (closingMarker ++ post)) =
        some mid.length :=
      findSubstr_eq_some_of hclose_ne hocc2 h2
    rw [docContribution, hfind1]
    simp only [hseg, hfind2]
    rw [List.take_left]
  · intro pre rest h1 h2
    have hocc1 : occursAt openingMarker (pre ++ (openingMarker ++ rest)) pre.length := by
      rw [occursAt, List.drop_left]
      exact startsWithL_append_self openingMarker _
    have hfind1 : findSubstr openingMarker (pre ++ (openingMarker ++ rest)) =
        some pre.length :=
      findSubstr_eq_some_of hopen_ne hocc1 h1
    have hseg : (pre ++ (openingMarker ++ rest)).drop
        (pre.length + openingMarker.length) = rest := by
      rw [show pre ++ (openingMarker ++ rest) = (pre ++ openingMarker) ++ rest from
        (List.append_assoc pre openingMarker rest).symm]
      rw [← List.length_append pre openingMarker, List.drop_left]
    have hfind2 : findSubstr closingMarker rest = none :=
      findSubstr_eq_none_of hclose_ne (forall_not_occursAt_of_bounded hclose_ne h2)
    rw [docContribution, hfind1]
    simp only [hseg, hfind2]
  · intro txt h
    have hfind : findSubstr openingMarker txt = none :=
      findSubstr_eq_none_of hopen_ne (forall_not_occursAt_of_bounded hopen_ne h)
    rw [docContribution, hfind]
  · intro docs
    constructor
    · intro hnone
      by_cases hb : (docs.filterMap docContribution).isEmpty
      · rw [List.isEmpty_iff, List.filterMap_eq_nil_iff] at hb
        exact hb
      · simp [gather_citation_section, hb] at hnone
    · intro hall
      have hb : (docs.filterMap docContribution).isEmpty = true := by
        rw [List.isEmpty_iff, List.filterMap_eq_nil_iff]
        exact hall
      simp [gather_citation_section, hb]

/-- C3, witness: the four parts of the extractor claim evaluated on
concrete documents. -/
theorem claim_C3_witness :
    docContribution ("ab".toList ++ (openingMarker ++ ("X1".toList ++ (closingMarker ++ "tl".toList))))
      = some ("X1".toList)
    ∧ docContribution ("cd".toList ++ (openingMarker ++ "Y2".toList)) = some ("Y2".toList)
    ∧ docContribution ("nothing here".toList) = none
    ∧ (gather_citation_section ["no marker".toList] = none ↔
        ∀ d ∈ ["no marker".toList], docContribution d = none) := by
  refine ⟨claim_C3_theorem.1 ("ab".toList) ("X1".toList) ("tl".toList) ?_ ?_,
    claim_C3_theorem.2.1 ("cd".toList) ("Y2".toList) ?_ ?_,
    claim_C3_theorem.2.2.1 ("nothing here".toList) ?_,
    claim_C3_theorem.2.2.2 ["no marker".toList]⟩
  all_goals decide

/-! ## Helper lemmas: entry loading -/

theorem endsWithL_iff {l suf : List Char} : endsWithL l suf = true ↔ ∃ p, l = p ++ suf := by
  rw [endsWithL, startsWithL_iff_ex]
  constructor
  · rintro ⟨t, ht⟩
    refine ⟨t.reverse, ?_⟩
    have h := congrArg List.reverse ht
    simpa [List.reverse_append] using h
  · rintro ⟨p, rfl⟩
    exact ⟨p.reverse, by simp [List.reverse_append]⟩

theorem normCell_ne_nil {v : List Char} (hv : pyStrip v ≠ [])
    (hdz : v ≠ '.' :: '0' :: []) : normCell v ≠ [] := by
  rw [normCell]
  by_cases he : endsWithL v ('.' :: '0' :: []) = true
  · rw [if_pos he]
    rcases endsWithL_iff.mp he with ⟨p, rfl⟩
    cases p with
    | nil => exact absurd rfl hdz
    | cons x xs =>
      intro hcon
      rw [show ((x :: xs) ++ '.' :: '0' :: []).length - 2 = (x :: xs).length by
        simp [List.length_append]] at hcon
      rw [List.take_left] at hcon
      exact List.cons_ne_nil x xs hcon
  · rw [if_neg he]
    intro hcon
    exact hv (by rw [hcon]; rfl)

theorem cellEmpty_eq_false {o : Option (List Char)} (h : cellEmpty o = false) :
    ∃ v, o = some v ∧ pyStrip v ≠ [] := by
  cases o with
  | none => simp [cellEmpty] at h
  | some s =>
    refine ⟨s, rfl, fun hcon => ?_⟩
    have h' : (pyStrip s).isEmpty = false := h
    rw [hcon] at h'
    simp at h'

theorem loadRows_ok_mem :
    ∀ (rows : List (Option (List Char) × Option (List Char) × Option (List Char)))
      (entries : List (List Char × List Char × List Char)),
      loadRows rows = .ok entries →
      ∀ e ∈ entries, ∃ r ∈ rows, ∃ va vb vc,
        r.1 = some va ∧ r.2.1 = some vb ∧ r.2.2 = some vc ∧
        pyStrip va ≠ [] ∧ pyStrip vb ≠ [] ∧ pyStrip vc ≠ [] ∧
        e = (normCell va, normCell vb, normCell vc) := by
  intro rows
  induction rows with
  | nil =>
    intro entries h e he
    rw [loadRows] at h
    cases h
    simp at he
  | cons r rest ih =>
    intro entries h e he
    obtain ⟨a, b, c⟩ := r
    rw [loadRows] at h
    by_cases ha : cellEmpty a
    · rw [if_pos ha] at h
      cases h
      simp at he
    · rw [if_neg ha] at h
      by_cases hb : cellEmpty b
      · rw [if_pos hb] at h
        exact Except.noConfusion h
      · rw [if_neg hb] at h
        by_cases hc : cellEmpty c
        · rw [if_pos hc] at h
          exact Except.noConfusion h
        · rw [if_neg hc] at h
          cases hrest : loadRows rest with
          | error e' =>
            rw [hrest] at h
            exact Except.noConfusion h
          | ok out =>
            rw [hrest] at h
            simp only [Except.map, Except.ok.injEq] at h
            subst h
            obtain ⟨va, hva, hsa⟩ := cellEmpty_eq_false (Bool.not_eq_true _ ▸ ha)
            obtain ⟨vb, hvb, hsb⟩ := cellEmpty_eq_false (Bool.not_eq_true _ ▸ hb)
            obtain ⟨vc, hvc, hsc⟩ := cellEmpty_eq_false (Bool.not_eq_true _ ▸ hc)
            rcases List.mem_cons.mp he with rfl | hm
            · refine ⟨(a, b, c), List.mem_cons_self _ _, va, vb, vc,
                hva, hvb, hvc, hsa, hsb, hsc, ?_⟩
              rw [hva, hvb, hvc]
              rfl
            · obtain ⟨r', hr', rest'⟩ := ih out hrest e hm
              exact ⟨r', List.mem_cons_of_mem _ hr', rest'⟩

/-- C7, counterexample.  A present cell whose string form is exactly `.0`
passes the emptiness validation but is normalised to the empty string, so a
returned entry can carry an empty application-number field, contrary to the
claimed invariant that all three fields of every returned entry are
non-empty. -/
theorem claim_C7_counterexample :
    load_entries [(some ("1".toList), some ('.' :: '0' :: []), some ("5".toList))] =
      Except.ok [("1".toList, ([] : List Char), "5".toList)] := by
  rfl

/-- C7, amended.  An empty (or absent) first cell stops the row loop at that
row with no error, regardless of the remaining rows; a present first cell
with an empty second (resp. third) cell aborts loading with a validation
error before any entry is returned; and every returned entry has all three
fields non-empty provided no input cell is the literal string `.0` (the
emptiness check runs before the trailing-`.0` normalisation, which is the
only way a validated cell can normalise to the empty string). -/
theorem claim_C7_theorem :
    (∀ a b c rest, cellEmpty a = true → loadRows ((a, b, c) :: rest) = .ok [])
    ∧ (∀ a b c rest, cellEmpty a = false → cellEmpty b = true →
        loadRows ((a, b, c) :: rest) = .error "B列が空")
    ∧ (∀ a b c rest, cellEmpty a = false → cellEmpty b = false → cellEmpty c = true →
        loadRows ((a, b, c) :: rest) = .error "C列が空")
    ∧ (∀ rows entries, loadRows rows = .ok entries →
        (∀ r ∈ rows, r.1 ≠ some ('.' :: '0' :: []) ∧ r.2.1 ≠ some ('.' :: '0' :: []) ∧
          r.2.2 ≠ some ('.' :: '0' :: [])) →
        ∀ e ∈ entries, e.1 ≠ [] ∧ e.2.1 ≠ [] ∧ e.2.2 ≠ []) := by
  refine ⟨?_, ?_, ?_, ?_⟩
  · intro a b c rest ha
    rw [loadRows, if_pos ha]
  · intro a b c rest ha hb
    rw [loadRows, if_neg (by rw [ha]; exact Bool.false_ne_true), if_pos hb]
  · intro a b c rest ha hb hc
    rw [loadRows, if_neg (by rw [ha]; exact Bool.false_ne_true),
      if_neg (by rw [hb]; exact Bool.false_ne_true), if_pos hc]
  · intro rows entries h hdz e he
    obtain ⟨r, hr, va, vb, vc, hva, hvb, hvc, hsa, hsb, hsc, hefields⟩ :=
      loadRows_ok_mem rows entries h e he
    obtain ⟨hda, hdb, hdc⟩ := hdz r hr
    rw [hefields]
    refine ⟨normCell_ne_nil hsa ?_, normCell_ne_nil hsb ?_, normCell_ne_nil hsc ?_⟩
    · intro hcon
      exact hda (by rw [hva, hcon])
    · intro hcon
      exact hdb (by rw [hvb, hcon])
    · intro hcon
      exact hdc (by rw [hvc, hcon])

/-- C7, witness: the end-of-table sentinel, the validation error and the
non-emptiness of normalised fields evaluated on concrete rows. -/
theorem claim_C7_witness :
    loadRows [((some (' ' :: []) : Option (List Char)), some ("x".toList), some ("y".toList)),
        (some ("q".toList), none, none)] = .ok []
    ∧ loadRows [((some ("1".toList) : Option (List Char)), some (' ' :: []), some ("z".toList))] =
        .error "B列が空"
    ∧ (∀ e ∈ [("12345".toList, "67".toList, "89".toList)],
        e.1 ≠ ([] : List Char) ∧ e.2.1 ≠ [] ∧ e.2.2 ≠ []) := by
  refine ⟨claim_C7_theorem.1 _ _ _ _ (by decide),
    claim_C7_theorem.2.1 _ _ _ _ (by decide) (by decide),
    claim_C7_theorem.2.2.2
      [((some ("12345.0".toList) : Option (List Char)), some ("67.0".toList), some ("89".toList))]
      [("12345".toList, "67".toList, "89".toList)] (by rfl) (by decide)⟩

/-! ## Helper lemmas: encoding detection -/

theorem dropWhile_cons_head {p : Char → Bool} :
    ∀ {l : List Char} {c : Char} {t : List Char},
      List.dropWhile p l = c :: t → p c = false := by
  intro l
  induction l with
  | nil => intro c t h; exact absurd h (by simp)
  | cons a l' ih =>
    intro c t h
    by_cases ha : p a
    · rw [List.dropWhile_cons_of_pos ha] at h
      exact ih h
    · rw [List.dropWhile_cons_of_neg ha] at h
      obtain ⟨rfl, -⟩ := List.cons.injEq .. ▸ h
      · exact Bool.not_eq_true _ ▸ ha

theorem drop_takeWhile_length (p : Char → Bool) (l : List Char) :
    l.drop (l.takeWhile p).length = l.dropWhile p := by
  have h := List.drop_left (l.takeWhile p) (l.dropWhile p)
  rw [List.takeWhile_append_dropWhile] at h
  exact h

theorem takeWhile_append_stop {p : Char → Bool} {v : List Char} {d : Char} {t : List Char}
    (hv : ∀ x ∈ v, p x = true) (hd : p d = false) :
    (v ++ d :: t).takeWhile p = v := by
  induction v with
  | nil =>
    rw [List.nil_append, List.takeWhile_cons_of_neg (by rw [hd]; exact Bool.false_ne_true)]
  | cons x xs ih =>
    rw [List.cons_append,
      List.takeWhile_cons_of_pos (hv x (List.mem_cons_self x xs)),
      ih (fun y hy => hv y (List.mem_cons_of_mem x hy))]

theorem matchEncAt_eq_some_iff {l v : List Char} :
    matchEncAt l = some v ↔
      v ≠ [] ∧ (∀ x ∈ v, x ≠ '"') ∧
        startsWithL (encMarker ++ (v ++ ['"'])) l = true := by
  constructor
  · intro h
    simp only [matchEncAt] at h
    by_cases hp : startsWithL encMarker l = true
    · rw [if_pos hp] at h
      set rest := l.drop encMarker.length with hrest_def
      set w := rest.takeWhile (fun c => decide (c ≠ '"')) with hw_def
      by_cases h1 : w.isEmpty
      · rw [if_pos h1] at h
        exact Option.noConfusion h
      · rw [if_neg h1] at h
        by_cases h2 : (rest.drop w.length).isEmpty
        · rw [if_pos h2] at h
          exact Option.noConfusion h
        · rw [if_neg h2] at h
          obtain rfl : w = v := Option.some.inj h
          refine ⟨fun hcon => h1 (by rw [hcon]; rfl), ?_, ?_⟩
          · intro x hx
            have := List.mem_takeWhile_imp (hw_def ▸ hx)
            exact of_decide_eq_true this
          · obtain ⟨t0, ht0⟩ := startsWithL_iff_ex.mp hp
            have hrest : rest = t0 := by rw [hrest_def, ht0, List.drop_left]
            have hdw : rest.drop w.length = rest.dropWhile (fun c => decide (c ≠ '"')) := by
              rw [hw_def, drop_takeWhile_length]
            cases hdrop : rest.dropWhile (fun c => decide (c ≠ '"')) with
            | nil => exact absurd (by rw [hdw, hdrop]; rfl) h2
            | cons d t =>
              have hd : d = '"' := by
                have := dropWhile_cons_head hdrop
                simpa using this
              have hsplit : rest = w ++ d :: t := by
                rw [hw_def, ← hdrop, List.takeWhile_append_dropWhile]
              refine startsWithL_iff_ex.mpr ⟨t, ?_⟩
              rw [ht0, ← hrest, hsplit, hd]
              simp [List.append_assoc]
    · rw [if_neg hp] at h
      exact Option.noConfusion h
  · rintro ⟨hne, hq, hsw⟩
    obtain ⟨t, ht⟩ := startsWithL_iff_ex.mp hsw
    have hl : l = encMarker ++ (v ++ ('"' :: t)) := by
      rw [ht]
      simp [List.append_assoc]
    have hp : startsWithL encMarker l = true := startsWithL_iff_ex.mpr ⟨v ++ ('"' :: t), hl⟩
    have hrest : l.drop encMarker.length = v ++ ('"' :: t) := by
      rw [hl, List.drop_left]
    have htw : (v ++ ('"' :: t)).takeWhile (fun c => decide (c ≠ '"')) = v :=
      takeWhile_append_stop (fun x hx => decide_eq_true (hq x hx)) (by simp)
    have hne' : v.isEmpty = false := List.isEmpty_eq_false.mpr hne
    simp only [matchEncAt, hp, if_true, hrest, htw, hne', Bool.false_eq_true, if_false]
    rw [if_neg]
    rw [List.drop_left]
    simp

theorem searchEnc_eq_some_of :
    ∀ {l : List Char} {i : Nat} {v : List Char},
      matchEncAt (l.drop i) = some v → (∀ j < i, matchEncAt (l.drop j) = none) →
      searchEnc l = some v := by
  intro l
  induction l with
  | nil =>
    intro i v h _
    rw [List.drop_nil] at h
    exact Option.noConfusion ((show matchEncAt [] = none from rfl) ▸ h)
  | cons c rest ih =>
    intro i v h hmin
    cases i with
    | zero =>
      rw [List.drop_zero] at h
      simp only [searchEnc, h]
    | succ i' =>
      have h0 : matchEncAt (c :: rest) = none := by
        have := hmin 0 (Nat.succ_pos i')
        rwa [List.drop_zero] at this
      simp only [searchEnc, h0]
      exact ih (by rwa [List.drop_succ_cons] at h)
        (fun j hj => by
          have := hmin (j + 1) (Nat.succ_lt_succ hj)
          rwa [List.drop_succ_cons] at this)

theorem searchEnc_eq_none_of :
    ∀ {l : List Char}, (∀ j, matchEncAt (l.drop j) = none) → searchEnc l = none := by
  intro l
  induction l with
  | nil => intro _; rfl
  | cons c rest ih =>
    intro h
    have h0 : matchEncAt (c :: rest) = none := by
      have := h 0
      rwa [List.drop_zero] at this
    simp only [searchEnc, h0]
    exact ih (fun j => by
      have := h (j + 1)
      rwa [List.drop_succ_cons] at this)

theorem replaceSj_cons_of_no_match {c : Char} {rest : List Char}
    (h : ¬ startsWithL sjAlias (c :: rest) = true) :
    replaceSj (c :: rest) = c :: replaceSj rest := by
  apply replaceSj.eq_3
  intro rest1 hc hrest
  apply h
  subst hc
  subst hrest
  rw [show sjAlias = 's' :: 'h' :: 'i' :: 'f' :: 't' :: '_' :: 'j' :: 'i' :: 's' :: [] from rfl]
  simp [startsWithL]

theorem replaceSj_eq_self : ∀ {l : List Char},
    (∀ j, ¬ occursAt sjAlias l j) → replaceSj l = l := by
  intro l
  induction l with
  | nil => intro _; rfl
  | cons c rest ih =>
    intro h
    have h0 : ¬ startsWithL sjAlias (c :: rest) = true := by
      have := h 0
      rwa [occursAt, List.drop_zero] at this
    rw [replaceSj_cons_of_no_match h0,
      ih (fun j hcon => h (j + 1) (occursAt_cons_succ.mpr hcon))]

theorem declAt_of_matchEncAt {l v : List Char} {i : Nat}
    (h : matchEncAt (l.drop i) = some v) : declAt l i v :=
  matchEncAt_eq_some_iff.mp h

theorem matchEncAt_of_declAt {l v : List Char} {i : Nat}
    (h : declAt l i v) : matchEncAt (l.drop i) = some v :=
  matchEncAt_eq_some_iff.mpr h

theorem not_declAt_lt_of_no_marker {l : List Char} {i : Nat}
    (h : ∀ j < i, ¬ occursAt encMarker l j) : ∀ j w, j < i → ¬ declAt l j w :=
  fun j w hj hd => h j hj (startsWithL_of_append hd.2.2)

theorem declAt_ge_of_no_marker_lt {l : List Char} {n : Nat}
    (h : ∀ j < n, ¬ occursAt encMarker l j) : ∀ j w, declAt l j w → n ≤ j := by
  intro j w hd
  by_contra hlt
  exact h j (Nat.lt_of_not_le (fun hle => hlt hle)) (startsWithL_of_append hd.2.2)

theorem not_declAt_of_no_marker {l : List Char}
    (h : ∀ j ≤ l.length, ¬ occursAt encMarker l j) : ∀ i w, ¬ declAt l i w := by
  intro i w hd
  exact forall_not_occursAt_of_bounded (by decide) h i (startsWithL_of_append hd.2.2)

/-- C6.  Decoding uses the encoding declared inline near the document's
start (within the 300-byte window the code scans): with the first
declaration capturing value `v`, the chosen encoding is the lowercased `v`
(case-insensitive matching) with the legacy alias `shift_jis` rewritten to
`cp932`; and with no declaration the universal default `utf-8` is chosen,
so decoding (performed with replacement of undecodable bytes) always has
an encoding to work with. -/
theorem claim_C6_theorem :
    (∀ (raw : List Char) (i : Nat) (v : List Char), declAt (raw.take 300) i v →
        (∀ j w, j < i → ¬ declAt (raw.take 300) j w) →
        pyLower v = sjAlias →
        detect_encoding raw = "cp932".toList)
    ∧ (∀ (raw : List Char) (i : Nat) (v : List Char), declAt (raw.take 300) i v →
        (∀ j w, j < i → ¬ declAt (raw.take 300) j w) →
        (∀ j, ¬ occursAt sjAlias (pyLower v) j) →
        detect_encoding raw = pyLower v)
    ∧ (∀ raw : List Char, (∀ i w, ¬ declAt (raw.take 300) i w) →
        detect_encoding raw = "utf-8".toList) := by
  have hsearch : ∀ (raw : List Char) (i : Nat) (v : List Char), declAt (raw.take 300) i v →
      (∀ j w, j < i → ¬ declAt (raw.take 300) j w) →
      searchEnc (raw.take 300) = some v := by
    intro raw i v hdecl hmin
    refine searchEnc_eq_some_of (matchEncAt_of_declAt hdecl) ?_
    intro j hj
    cases hm : matchEncAt ((raw.take 300).drop j) with
    | none => rfl
    | some w => exact absurd (declAt_of_matchEncAt hm) (hmin j w hj)
  refine ⟨?_, ?_, ?_⟩
  · intro raw i v hdecl hmin hlow
    rw [detect_encoding, hsearch raw i v hdecl hmin]
    show replaceSj (pyLower v) = "cp932".toList
    rw [hlow]
    rfl
  · intro raw i v hdecl hmin hnosj
    rw [detect_encoding, hsearch raw i v hdecl hmin]
    show replaceSj (pyLower v) = pyLower v
    exact replaceSj_eq_self hnosj
  · intro raw hnone
    have h : ∀ j, matchEncAt ((raw.take 300).drop j) = none := by
      intro j
      cases hm : matchEncAt ((raw.take 300).drop j) with
      | none => rfl
      | some w => exact absurd (declAt_of_matchEncAt hm) (hnone j w)
    rw [detect_encoding, searchEnc_eq_none_of h]

/-- C6, witness: a declaration `Shift_JIS` is mapped case-insensitively to
`cp932`, a declaration `UTF-8` is used lowercased, and a document without a
declaration falls back to `utf-8`. -/
theorem claim_C6_witness :
    detect_encoding ("<?xml version=\"1.0\" encoding=\"Shift_JIS\"?>".toList) = "cp932".toList
    ∧ detect_encoding ("<?xml version=\"1.0\" encoding=\"UTF-8\"?>".toList) = "utf-8".toList
    ∧ detect_encoding ("<?xml version=\"1.0\"?>".toList) = "utf-8".toList := by
  refine ⟨?_, ?_, ?_⟩
  · exact claim_C6_theorem.1 ("<?xml version=\"1.0\" encoding=\"Shift_JIS\"?>".toList)
      20 ("Shift_JIS".toList) (by decide)
      (not_declAt_lt_of_no_marker (by decide)) (by decide)
  · have h := claim_C6_theorem.2.1 ("<?xml version=\"1.0\" encoding=\"UTF-8\"?>".toList)
      20 ("UTF-8".toList) (by decide)
      (not_declAt_lt_of_no_marker (by decide))
      (forall_not_occursAt_of_bounded (by decide) (by decide))
    rw [h]
    decide
  · exact claim_C6_theorem.2.2 ("<?xml version=\"1.0\"?>".toList)
      (not_declAt_of_no_marker (by decide))

/-- C10.  The declaration scan inspects only the first 300 bytes: for every
document all of whose encoding declarations start at or after byte 300, the
declarations are ignored and the `utf-8` default is used. -/
theorem claim_C10_theorem (raw : List Char) (i : Nat) (v : List Char)
    (hdecl : declAt raw i v) (hafter : ∀ j w, declAt raw j w → 300 ≤ j) :
    detect_encoding raw = "utf-8".toList := by
  have hnone : ∀ j, matchEncAt ((raw.take 300).drop j) = none := by
    intro j
    cases hm : matchEncAt ((raw.take 300).drop j) with
    | none => rfl
    | some w =>
      exfalso
      obtain ⟨hne, hq, hsw⟩ := declAt_of_matchEncAt hm
      have hdw : declAt raw j w := ⟨hne, hq, by
        rw [List.drop_take] at hsw
        exact startsWithL_of_take hsw⟩
      have h300 := hafter j w hdw
      have hlen : j < (raw.take 300).length := by
        by_contra hge
        rw [List.drop_eq_nil_of_le (Nat.le_of_not_lt hge)] at hm
        exact Option.noConfusion ((show matchEncAt [] = none from rfl) ▸ hm)
      have hle : (raw.take 300).length ≤ 300 := by
        rw [List.length_take]
        exact min_le_left _ _
      omega
  rw [detect_encoding, searchEnc_eq_none_of hnone]

set_option maxRecDepth 4000 in
/-- C10, witness: a document whose only declaration starts at byte 300 is
decoded with the default `utf-8` even though the declaration names
`cp932`. -/
theorem claim_C10_witness :
    detect_encoding (List.replicate 300 'x' ++ "encoding=\"cp932\"".toList) = "utf-8".toList :=
  claim_C10_theorem (List.replicate 300 'x' ++ "encoding=\"cp932\"".toList)
    300 ("cp932".toList) (by decide)
    (declAt_ge_of_no_marker_lt (by decide))

/-! ## Helper lemmas: the per-entry pipeline -/

theorem seedLine_no_lf {pub : List Char} (h1 : '\n' ∉ pub) : '\n' ∉ seedLine pub := by
  intro hcon
  rw [seedLine] at hcon
  rcases List.mem_append.mp hcon with hl | hr
  · rcases List.mem_append.mp hl with ha | hb
    · exact absurd ha (by decide)
    · exact h1 hb
  · exact absurd hr (by decide)

theorem seedLine_no_cr {pub : List Char} (h2 : '\r' ∉ pub) : '\r' ∉ seedLine pub := by
  intro hcon
  rw [seedLine] at hcon
  rcases List.mem_append.mp hcon with hl | hr
  · rcases List.mem_append.mp hl with ha | hb
    · exact absurd ha (by decide)
    · exact h2 hb
  · exact absurd hr (by decide)

theorem seedContent_eq (pub : List Char) : seedContent pub = seedLine pub ++ ['\n'] := by
  simp [seedContent, seedLine]

theorem append_citations_cases (oracle : List Char → Option (List Char)) (pub : List Char)
    (docs : List (List Char)) (st : Option (List Char)) :
    append_citations oracle pub docs st = st ∨
    ∃ resp, parseOracle resp ≠ [] ∧
      append_citations oracle pub docs st =
        some (mergeContent (ensure_pub_txt pub st) (parseOracle resp)) := by
  cases hg : gather_citation_section docs with
  | none => exact Or.inl (by simp [append_citations, hg])
  | some raw =>
    by_cases hs : (pyStrip raw).isEmpty
    · exact Or.inl (by simp [append_citations, hg, gpt_normalize, hs])
    · cases ho : oracle (raw.take 12000) with
      | none => exact Or.inl (by simp [append_citations, hg, gpt_normalize, hs, ho])
      | some resp =>
        by_cases hi : (parseOracle resp).isEmpty
        · exact Or.inl (by simp [append_citations, hg, gpt_normalize, hs, ho, hi])
        · refine Or.inr ⟨resp, fun hcon => hi (by rw [hcon] ; rfl), ?_⟩
          simp [append_citations, hg, gpt_normalize, hs, ho, hi]

/-- C9.  For every entry iteration of the `main` loop the ledger for the
entry's publication exists afterwards, whatever the download outcome
(arbitrary document list, including none), the oracle outcome (including
transport failure) and the extraction outcome: if the ledger was absent it
now starts with the seed line, and if it existed its content is preserved
as a prefix (only appends happen). -/
theorem claim_C9_theorem (oracle : List Char → Option (List Char)) (pub : List Char)
    (docs : List (List Char)) (st : Option (List Char))
    (h1 : '\n' ∉ pub) (h2 : '\r' ∉ pub) :
    ∃ content, processEntry oracle pub docs st = some content
      ∧ (st = none → (pySplitlines content).head? = some (seedLine pub))
      ∧ (∀ c0, st = some c0 → ∃ extra, content = c0 ++ extra) := by
  have hlf := seedLine_no_lf h1
  have hcr := seedLine_no_cr h2
  rcases append_citations_cases oracle pub docs (some (ensure_pub_txt pub st)) with
    hcase | ⟨resp, hne, hcase⟩
  · refine ⟨ensure_pub_txt pub st, ?_, ?_, ?_⟩
    · rw [processEntry, hcase]
    · intro hst
      subst hst
      rw [show ensure_pub_txt pub none = seedLine pub ++ ['\n'] from seedContent_eq pub,
        pySplitlines_single hlf hcr]
      rfl
    · intro c0 hst
      subst hst
      exact ⟨[], by simp [ensure_pub_txt]⟩
  · refine ⟨mergeContent (ensure_pub_txt pub st) (parseOracle resp), ?_, ?_, ?_⟩
    · rw [processEntry, hcase]
      rfl
    · intro hst
      subst hst
      rw [show mergeContent (ensure_pub_txt pub none) (parseOracle resp) =
          seedLine pub ++ '\n' :: List.flatten
            ((newCitations (ensure_pub_txt pub none) (parseOracle resp)).map
              (fun i => i ++ ['\n'])) from by
        rw [mergeContent, show ensure_pub_txt pub none = seedLine pub ++ ['\n'] from
          seedContent_eq pub]
        simp [List.append_assoc]]
      rw [pySplitlines_peel _ hlf hcr]
      rfl
    · intro c0 hst
      subst hst
      exact ⟨_, by rw [mergeContent]; rfl⟩

/-- C9, witness: with a failed download (no documents) and an absent
ledger, processing the entry still creates the ledger with the seed line
for publication 2025012345. -/
theorem claim_C9_witness :
    processEntry (fun _ => none) ("2025012345".toList) [] none =
      some (seedContent ("2025012345".toList))
    ∧ (pySplitlines (seedContent ("2025012345".toList))).head? =
      some (seedLine ("2025012345".toList)) := by
  obtain ⟨content, heq, hfresh, -⟩ :=
    claim_C9_theorem (fun _ => none) ("2025012345".toList) [] none (by decide) (by decide)
  have hval : processEntry (fun _ => none) ("2025012345".toList) [] none =
      some (seedContent ("2025012345".toList)) := by rfl
  refine ⟨hval, ?_⟩
  have hc : content = seedContent ("2025012345".toList) :=
    Option.some.inj (heq.symm.trans hval)
  rw [← hc]
  exact hfresh rfl
